import Mathlib

/-!
Mesh quality assessment: partition, aspect ratio, reduction, loader, lattice generator.

Shallow embedding of `compute_quality.cpp`, `compute_quality_mpi.cpp`, `load_mesh.cpp`,
`gen_diamond.cpp` and `gen_diamond_omp.cpp`.

Conventions of the embedding.
* A `double` is a value of `Dbl K`: a number of the ordered field `K` (every finite double is
  a rational, so `K = ℚ` runs the code; `K = ℝ` reads it over the reals), `+inf`, `-inf` or
  NaN.  Point coordinates are finite, so a `Vec3` holds numbers of `K`.
* `aspectRatio` and the statistics compute on numbers exactly (exact arithmetic).
  `aspectRatioR rnd` is the same kernel with every result stored as `rnd` says: `Dbl.fin`
  gives back `aspectRatio`, `toDouble` makes results overflow and underflow as doubles do.
* `std::sqrt` is a parameter `sqrt : K → K`; theorems state what they need of it.
* `size_t` is `Nat`.  In the partition no product or sum exceeds `numTets`, so nothing wraps;
  in the lattice generator products are reduced modulo `2 ^ 64`.
* `Option` results: `none` stands for undefined behaviour of the C++ program (an unchecked
  `operator[]` outside the vector, a variable read after a failed extraction).
* `MPI_Reduce` combines the local values in rank order with its operator.
-/

namespace MeshQuality

/-! ## Partition of the tetrahedron range (`compute_quality_mpi.cpp`, step 2) -/

/-- Models `size_t perRank = numTets / size;` -/
def perRank (numTets size : Nat) : Nat := numTets / size

/-- Models `size_t start = rank * perRank;` -/
def start (numTets size rank : Nat) : Nat := rank * perRank numTets size

/-- Models `size_t end = (rank == size-1) ? numTets : start + perRank;` -/
def rangeEnd (numTets size rank : Nat) : Nat :=
  if rank = size - 1 then numTets else start numTets size rank + perRank numTets size

/-- The boundary sequence of the partition: `start` below `size`, `numTets` from `size` on. -/
def bound (numTets size rank : Nat) : Nat :=
  if rank < size then start numTets size rank else numTets

/-! ## Doubles -/

/-- A `double`: a number, `+inf`, `-inf` or NaN. -/
inductive Dbl (K : Type) where
  | fin (x : K)
  | pinf
  | ninf
  | nan
  deriving DecidableEq, Repr

namespace Dbl

variable {K : Type} [LinearOrderedField K]

/-- The comparison `a < b` of doubles; false whenever an operand is NaN. -/
def lt : Dbl K → Dbl K → Bool
  | fin a, fin b => decide (a < b)
  | fin _, pinf => true
  | ninf, fin _ => true
  | ninf, pinf => true
  | _, _ => false

/-- The sum `a + b` of doubles. -/
def add : Dbl K → Dbl K → Dbl K
  | fin a, fin b => fin (a + b)
  | nan, _ => nan
  | _, nan => nan
  | pinf, ninf => nan
  | ninf, pinf => nan
  | pinf, _ => pinf
  | _, pinf => pinf
  | ninf, _ => ninf
  | _, ninf => ninf

/-- The quotient `a / b` of doubles; the zero of `K` is the positive zero. -/
def div : Dbl K → Dbl K → Dbl K
  | fin a, fin b =>
      if b = 0 then (if 0 < a then pinf else if a < 0 then ninf else nan) else fin (a / b)
  | nan, _ => nan
  | _, nan => nan
  | fin _, pinf => fin 0
  | fin _, ninf => fin 0
  | pinf, fin b => if 0 ≤ b then pinf else ninf
  | ninf, fin b => if 0 ≤ b then ninf else pinf
  | pinf, pinf => nan
  | pinf, ninf => nan
  | ninf, pinf => nan
  | ninf, ninf => nan

/-- Models `std::min(a, b)`: `b` when `b < a`, else `a`. -/
def stdMin (a b : Dbl K) : Dbl K := if lt b a then b else a

/-- Models `std::max(a, b)`: `b` when `a < b`, else `a`. -/
def stdMax (a b : Dbl K) : Dbl K := if lt a b then b else a

/-- The operator of `MPI_MIN` on two doubles. -/
def mpiMin (a b : Dbl K) : Dbl K := if lt a b then a else b

/-- The operator of `MPI_MAX` on two doubles. -/
def mpiMax (a b : Dbl K) : Dbl K := if lt a b then b else a

/-- The product `a * b` of doubles. -/
def mul : Dbl K → Dbl K → Dbl K
  | fin a, fin b => fin (a * b)
  | nan, _ => nan
  | _, nan => nan
  | fin a, pinf => if 0 < a then pinf else if a < 0 then ninf else nan
  | fin a, ninf => if 0 < a then ninf else if a < 0 then pinf else nan
  | pinf, fin b => if 0 < b then pinf else if b < 0 then ninf else nan
  | ninf, fin b => if 0 < b then ninf else if b < 0 then pinf else nan
  | pinf, pinf => pinf
  | pinf, ninf => ninf
  | ninf, pinf => ninf
  | ninf, ninf => pinf

/-- Models `std::sqrt` on a double, from the square root `sqrt` on numbers. -/
def sqrtD (sqrt : K → K) : Dbl K → Dbl K
  | fin a => if a < 0 then nan else fin (sqrt a)
  | pinf => pinf
  | ninf => nan
  | nan => nan

/-- The double that the result `d` of an operation becomes when a number is stored as
`rnd` says; infinities and NaN stay. -/
def round (rnd : K → Dbl K) : Dbl K → Dbl K
  | fin a => rnd a
  | d => d

/-- The double is an extended number: not NaN. -/
def IsNum : Dbl K → Prop
  | nan => False
  | _ => True

/-- The double is a number `≥ 0` or `+inf`. -/
def IsNonneg : Dbl K → Prop
  | fin a => 0 ≤ a
  | pinf => True
  | _ => False

end Dbl

/-! ## Geometry kernel (`aspectRatio`, both variants) -/

/-- Models `struct Vec3 { double x, y, z; };` -/
structure Vec3 (K : Type) where
  x : K
  y : K
  z : K
  deriving DecidableEq, Repr

section Kernel

variable {K : Type} [LinearOrderedField K]

/-- The six entries of `std::array<Vec3,6> edges`. -/
def edges (A B C D : Vec3 K) : List (Vec3 K) :=
  [ ⟨B.x - A.x, B.y - A.y, B.z - A.z⟩,
    ⟨C.x - A.x, C.y - A.y, C.z - A.z⟩,
    ⟨D.x - A.x, D.y - A.y, D.z - A.z⟩,
    ⟨C.x - B.x, C.y - B.y, C.z - B.z⟩,
    ⟨D.x - B.x, D.y - B.y, D.z - B.z⟩,
    ⟨D.x - C.x, D.y - C.y, D.z - C.z⟩ ]

/-- Models `double len = std::sqrt(e.x*e.x + e.y*e.y + e.z*e.z);` in exact arithmetic. -/
def edgeLen (sqrt : K → K) (e : Vec3 K) : K := sqrt (e.x * e.x + e.y * e.y + e.z * e.z)

/-- The body of the loop over `edges`: the state is `(minLen, maxLen)`. -/
def lenStep (sqrt : K → K) (acc : Dbl K × Dbl K) (e : Vec3 K) : Dbl K × Dbl K :=
  (Dbl.stdMin acc.1 (Dbl.fin (edgeLen sqrt e)), Dbl.stdMax acc.2 (Dbl.fin (edgeLen sqrt e)))

/-- Models `aspectRatio` in exact arithmetic: fold `minLen` from `+inf` and `maxLen` from
`0.0` over the six edges, return `maxLen / minLen`. Differences, squares, sums and the
quotient of numbers are exact here; `aspectRatioR` stores every result as a double. -/
def aspectRatio (sqrt : K → K) (A B C D : Vec3 K) : Dbl K :=
  let r := (edges A B C D).foldl (lenStep sqrt) (Dbl.pinf, Dbl.fin 0)
  Dbl.div r.2 r.1

/-- The six entries of `std::array<Vec3,6> edges` as doubles: every difference is stored as
`rnd` says. -/
def edgesR (rnd : K → Dbl K) (A B C D : Vec3 K) : List (Vec3 (Dbl K)) :=
  [ ⟨rnd (B.x - A.x), rnd (B.y - A.y), rnd (B.z - A.z)⟩,
    ⟨rnd (C.x - A.x), rnd (C.y - A.y), rnd (C.z - A.z)⟩,
    ⟨rnd (D.x - A.x), rnd (D.y - A.y), rnd (D.z - A.z)⟩,
    ⟨rnd (C.x - B.x), rnd (C.y - B.y), rnd (C.z - B.z)⟩,
    ⟨rnd (D.x - B.x), rnd (D.y - B.y), rnd (D.z - B.z)⟩,
    ⟨rnd (D.x - C.x), rnd (D.y - C.y), rnd (D.z - C.z)⟩ ]

/-- Models `double len = std::sqrt(e.x*e.x + e.y*e.y + e.z*e.z);` with every intermediate
result stored as `rnd` says. -/
def edgeLenR (rnd : K → Dbl K) (sqrt : K → K) (e : Vec3 (Dbl K)) : Dbl K :=
  Dbl.round rnd (Dbl.sqrtD sqrt
    (Dbl.round rnd (Dbl.add
      (Dbl.round rnd (Dbl.add (Dbl.round rnd (Dbl.mul e.x e.x))
        (Dbl.round rnd (Dbl.mul e.y e.y))))
      (Dbl.round rnd (Dbl.mul e.z e.z)))))

/-- The body of the loop over `edges` on doubles: the state is `(minLen, maxLen)`. -/
def lenStepR (rnd : K → Dbl K) (sqrt : K → K) (acc : Dbl K × Dbl K) (e : Vec3 (Dbl K)) :
    Dbl K × Dbl K :=
  (Dbl.stdMin acc.1 (edgeLenR rnd sqrt e), Dbl.stdMax acc.2 (edgeLenR rnd sqrt e))

/-- Models `aspectRatio` with every arithmetic result stored as `rnd` says: with
`rnd = Dbl.fin` this is `aspectRatio` (exact arithmetic), with `rnd = toDouble` the results
overflow and underflow as doubles do. -/
def aspectRatioR (rnd : K → Dbl K) (sqrt : K → K) (A B C D : Vec3 K) : Dbl K :=
  let r := (edgesR rnd A B C D).foldl (lenStepR rnd sqrt) (Dbl.pinf, Dbl.fin 0)
  Dbl.round rnd (Dbl.div r.2 r.1)

/-- The spec's Euclidean length of the edge between `P` and `Q`, with the square root
`sqrt`. -/
def dist (sqrt : K → K) (P Q : Vec3 K) : K :=
  sqrt ((Q.x - P.x) ^ 2 + (Q.y - P.y) ^ 2 + (Q.z - P.z) ^ 2)

/-- The spec's six pairwise distances of four points: AB, AC, AD, BC, BD, CD. -/
def pairDists (sqrt : K → K) (A B C D : Vec3 K) : List K :=
  [dist sqrt A B, dist sqrt A C, dist sqrt A D, dist sqrt B C, dist sqrt B D, dist sqrt C D]

end Kernel

/-- A square root on the rationals, exact on squares of rationals; runs the code on samples. -/
def sqrtQ (q : ℚ) : ℚ := (Nat.sqrt q.num.toNat : ℚ) / (Nat.sqrt q.den : ℚ)

/-- The range of a `double` (binary64, round to nearest): an exact result at or beyond
`2^1024 - 2^970`, halfway between the largest double and `2^1024`, is stored as an infinity;
one of magnitude at most `2^-1075`, half the least positive double, is stored as zero. The
rounding of the digits of a result in between is not modelled. -/
def toDouble (x : ℚ) : Dbl ℚ :=
  if 2 ^ 1024 - 2 ^ 970 ≤ x then Dbl.pinf
  else if x ≤ -(2 ^ 1024 - 2 ^ 970) then Dbl.ninf
  else if |x| ≤ 1 / 2 ^ 1075 then Dbl.fin 0
  else Dbl.fin x

/-! ## Local aggregation, reduction and report -/

/-- Models `std::array<int,4>`: the four vertex indices of a tetrahedron. -/
structure Tet where
  v0 : Int
  v1 : Int
  v2 : Int
  v3 : Int
  deriving DecidableEq, Repr

/-- All results of a list of steps, or `none` as soon as one step is `none`. -/
def collect {α : Type} : List (Option α) → Option (List α)
  | [] => some []
  | none :: _ => none
  | some a :: l => (collect l).map (fun r => a :: r)

section Aggregation

variable {K : Type} [LinearOrderedField K]

/-- Models `points[i]` with an `int` index: unchecked in C++, so outside the vector it is
`none`. -/
def lookup (points : List (Vec3 K)) (i : Int) : Option (Vec3 K) :=
  if 0 ≤ i then points[i.toNat]? else none

/-- Models `aspectRatio(points[tet[0]], points[tet[1]], points[tet[2]], points[tet[3]])`. -/
def tetRatio (sqrt : K → K) (points : List (Vec3 K)) (tet : Tet) : Option (Dbl K) :=
  match lookup points tet.v0, lookup points tet.v1, lookup points tet.v2,
    lookup points tet.v3 with
  | some A, some B, some C, some D => some (aspectRatio sqrt A B C D)
  | _, _, _, _ => none

/-- The running values `(min, max, sum)` of a statistics loop. -/
structure Agg (K : Type) where
  min : Dbl K
  max : Dbl K
  sum : Dbl K
  deriving DecidableEq, Repr

/-- The start values: `localMin = +inf`, `localMax = 0.0`, `localSum = 0.0`. -/
def Agg.init : Agg K := ⟨Dbl.pinf, Dbl.fin 0, Dbl.fin 0⟩

/-- One iteration: `min = std::min(min, r); max = std::max(max, r); sum += r;`. -/
def Agg.step (a : Agg K) (r : Dbl K) : Agg K :=
  ⟨Dbl.stdMin a.min r, Dbl.stdMax a.max r, Dbl.add a.sum r⟩

/-- The loop `for (size_t i = start; i < end; ++i)` of the MPI variant, run for `n` more
iterations from index `i` with running values `acc`. -/
def localLoop (sqrt : K → K) (points : List (Vec3 K)) (tets : List Tet) :
    Nat → Nat → Agg K → Option (Agg K)
  | _, 0, acc => some acc
  | i, n + 1, acc =>
    match tets[i]? with
    | none => none
    | some tet =>
      match tetRatio sqrt points tet with
      | none => none
      | some r => localLoop sqrt points tets (i + 1) n (acc.step r)

/-- The local aggregate of rank `rank` among `size` ranks. -/
def localAgg (sqrt : K → K) (points : List (Vec3 K)) (tets : List Tet) (size rank : Nat) :
    Option (Agg K) :=
  localLoop sqrt points tets (start tets.length size rank)
    (rangeEnd tets.length size rank - start tets.length size rank) Agg.init

/-- Models `MPI_Reduce` of one double with operator `op`, combined in rank order. -/
def mpiReduce (op : Dbl K → Dbl K → Dbl K) (first : Dbl K) (rest : List (Dbl K)) : Dbl K :=
  rest.foldl op first

/-- What a run reports: minimum, maximum, sum and average ratio. -/
structure Stats (K : Type) where
  min : Dbl K
  max : Dbl K
  sum : Dbl K
  avg : Dbl K
  deriving DecidableEq, Repr

/-- The MPI variant from step 2 on, with `size` ranks: every rank folds its range, the three
`MPI_Reduce` calls combine the local values, rank 0 divides the sum by `numTets`. -/
def mpiRun (sqrt : K → K) (points : List (Vec3 K)) (tets : List Tet) (size : Nat) :
    Option (Stats K) :=
  match collect ((List.range size).map (localAgg sqrt points tets size)) with
  | none => none
  | some [] => none
  | some (l0 :: ls) =>
    let globalMin := mpiReduce Dbl.mpiMin l0.min (ls.map Agg.min)
    let globalMax := mpiReduce Dbl.mpiMax l0.max (ls.map Agg.max)
    let globalSum := mpiReduce Dbl.add l0.sum (ls.map Agg.sum)
    some ⟨globalMin, globalMax, globalSum, Dbl.div globalSum (Dbl.fin (tets.length : K))⟩

/-- Step 3 of the single-process variant: the vector `ratios`. -/
def ratios (sqrt : K → K) (points : List (Vec3 K)) (tets : List Tet) : Option (List (Dbl K)) :=
  collect (tets.map (tetRatio sqrt points))

/-- Step 4 of the single-process variant: fold `sum`, `minRatio`, `maxRatio` over `ratios`,
then `avgRatio = sum / ratios.size()`. -/
def statistics (rs : List (Dbl K)) : Stats K :=
  let a := rs.foldl Agg.step Agg.init
  ⟨a.min, a.max, a.sum, Dbl.div a.sum (Dbl.fin (rs.length : K))⟩

/-- The single-process variant from step 3 on. -/
def singleRun (sqrt : K → K) (points : List (Vec3 K)) (tets : List Tet) : Option (Stats K) :=
  (ratios sqrt points tets).map statistics

/-- The three reductions on a pair of local aggregates: `MPI_MIN`, `MPI_MAX`, `MPI_SUM`. -/
def Agg.merge (a b : Agg K) : Agg K :=
  ⟨Dbl.mpiMin a.min b.min, Dbl.mpiMax a.max b.max, Dbl.add a.sum b.sum⟩

/-- What every running aggregate satisfies: `min` is not NaN, `max` is `≥ 0` or `+inf`. -/
def Agg.Valid (a : Agg K) : Prop := a.min.IsNum ∧ a.max.IsNonneg

/-- The ratios a rank folds: the entries of `rs` from `start` up to `end`. -/
def slice (rs : List (Dbl K)) (size rank : Nat) : List (Dbl K) :=
  (rs.drop (start rs.length size rank)).take
    (rangeEnd rs.length size rank - start rs.length size rank)

/-- The spec's degenerate tetrahedron: two of the four vertices are at the same position. -/
def Coincident (A B C D : Vec3 K) : Prop :=
  A = B ∨ A = C ∨ A = D ∨ B = C ∨ B = D ∨ C = D

end Aggregation

/-- A sample point array: a 3 by 4 rectangle and a second copy of its first corner. -/
def degPoints : List (Vec3 ℚ) := [⟨0, 0, 0⟩, ⟨3, 0, 0⟩, ⟨0, 4, 0⟩, ⟨3, 4, 0⟩, ⟨0, 0, 0⟩]

/-- Two sample tetrahedra over `degPoints`: the second has vertices 0 and 4 at one position. -/
def degTets : List Tet := [⟨0, 1, 2, 3⟩, ⟨0, 4, 1, 2⟩]

/-! ## Tetrahedra file loader (`load_mesh.cpp`, and step 2 of both quality programs) -/

/-- Models `eleFile >> x` for an `int x`: the next token when it is a 32-bit `int`; `none`
when the stream is exhausted or the number does not fit (the extraction fails). -/
def readInt : List Int → Option (Int × List Int)
  | [] => none
  | t :: rest => if -(2 ^ 31) ≤ t ∧ t < 2 ^ 31 then some (t, rest) else none

/-- Models `eleFile >> numTets` for the `size_t numTets`: the next token when it is a 64-bit
unsigned number. -/
def readSize : List Int → Option (Nat × List Int)
  | [] => none
  | t :: rest => if 0 ≤ t ∧ t < 2 ^ 64 then some (t.toNat, rest) else none

/-- Models `n - 1` on `int`: undefined when it overflows. -/
def subOne (n : Int) : Option Int := if n = -(2 ^ 31) then none else some (n - 1)

/-- The loop `for (size_t i = 0; i < numTets; ++i)` of the loader: each iteration extracts
`id n0 n1 n2 n3` and appends `{n0-1, n1-1, n2-1, n3-1}`. -/
def loadTets : Nat → List Int → Option (List Tet)
  | 0, _ => some []
  | n + 1, s =>
    match readInt s with
    | none => none
    | some (_, s) =>
      match readInt s with
      | none => none
      | some (n0, s) =>
        match readInt s with
        | none => none
        | some (n1, s) =>
          match readInt s with
          | none => none
          | some (n2, s) =>
            match readInt s with
            | none => none
            | some (n3, s) =>
              match subOne n0, subOne n1, subOne n2, subOne n3, loadTets n s with
              | some a, some b, some c, some d, some rest => some (⟨a, b, c, d⟩ :: rest)
              | _, _, _, _, _ => none

/-- The `.ele` part of the loader on the token sequence of the file: extract
`numTets nodesPerTet eleMarkers`, then run the loop. -/
def loadEle (tokens : List Int) : Option (List Tet) :=
  match readSize tokens with
  | none => none
  | some (numTets, s) =>
    match readInt s with
    | none => none
    | some (_, s) =>
      match readInt s with
      | none => none
      | some (_, s) => loadTets numTets s

/-- One line `id n0 n1 n2 n3 [marker]` of a tetrahedra file, as the spec states the format. -/
structure EleLine where
  id : Int
  n0 : Int
  n1 : Int
  n2 : Int
  n3 : Int
  marker : Int
  deriving DecidableEq, Repr

/-- The tokens of one line: the marker is present exactly when `eleMarkers` is 1. -/
def EleLine.tokens (eleMarkers : Int) (l : EleLine) : List Int :=
  [l.id, l.n0, l.n1, l.n2, l.n3] ++ (if eleMarkers = 1 then [l.marker] else [])

/-- The token sequence of a tetrahedra file in the spec's format: the header
`numTets nodesPerTet eleMarkers`, then the lines. -/
def eleFile (nodesPerTet eleMarkers : Int) (lines : List EleLine) : List Int :=
  [(lines.length : Int), nodesPerTet, eleMarkers]
    ++ (lines.map (EleLine.tokens eleMarkers)).flatten

/-- The tetrahedron the spec assigns to a line: `(n0-1, n1-1, n2-1, n3-1)`. -/
def EleLine.toTet (l : EleLine) : Tet := ⟨l.n0 - 1, l.n1 - 1, l.n2 - 1, l.n3 - 1⟩

/-- The number is a 32-bit `int`. -/
def IsInt32 (n : Int) : Prop := -(2 ^ 31) ≤ n ∧ n < 2 ^ 31

/-- Every number of the line is a 32-bit `int`, and the node ids are above the least one. -/
def EleLine.Fits (l : EleLine) : Prop :=
  IsInt32 l.id ∧ (IsInt32 l.n0 ∧ l.n0 ≠ -(2 ^ 31)) ∧ (IsInt32 l.n1 ∧ l.n1 ≠ -(2 ^ 31)) ∧
    (IsInt32 l.n2 ∧ l.n2 ≠ -(2 ^ 31)) ∧ (IsInt32 l.n3 ∧ l.n3 ≠ -(2 ^ 31))

/-! ## Lattice generator (`gen_diamond.cpp`, `gen_diamond_omp.cpp`) -/

/-- Product of two `size_t` values. -/
def mulSz (a b : Nat) : Nat := (a * b) % 2 ^ 64

/-- Sum of two `size_t` values. -/
def addSz (a b : Nat) : Nat := (a + b) % 2 ^ 64

/-- Models `fcc.size()`. -/
def fccSize : Nat := 4

/-- Models `basis.size()`. -/
def basisSize : Nat := 2

/-- Models `size_t totalPts = size_t(N)*N*N * fcc.size() * basis.size();` -/
def totalPts (N : Nat) : Nat := mulSz (mulSz (mulSz (mulSz N N) N) fccSize) basisSize

/-- Models `size_t cellIdx = (size_t(i)*N + j)*N + k;` -/
def cellIdx (N i j k : Nat) : Nat := addSz (mulSz (addSz (mulSz i N) j) N) k

/-- Models `size_t baseOffset = cellIdx * (fcc.size()*basis.size());` -/
def baseOffset (N i j k : Nat) : Nat := mulSz (cellIdx N i j k) (mulSz fccSize basisSize)

/-- Models `size_t idx = baseOffset + fi*basis.size() + bi;` -/
def idx (N i j k fi bi : Nat) : Nat :=
  addSz (addSz (baseOffset N i j k) (mulSz fi basisSize)) bi

/-- The iterations of the loop nest: `(i, j, k, fi, bi)` with `i, j, k < N`, `fi < 4`,
`bi < 2`. -/
def InLoop (N i j k fi bi : Nat) : Prop :=
  i < N ∧ j < N ∧ k < N ∧ fi < fccSize ∧ bi < basisSize

instance (N i j k fi bi : Nat) : Decidable (InLoop N i j k fi bi) := by
  unfold InLoop
  infer_instance

/-! ## The partition tiles the index range -/

theorem start_le_numTets (T W r : Nat) (hr : r < W) : start T W r ≤ T := by
  unfold start perRank
  calc r * (T / W) ≤ W * (T / W) := Nat.mul_le_mul_right _ hr.le
    _ ≤ T := Nat.mul_div_le T W

theorem start_mono (T W : Nat) {r s : Nat} (h : r ≤ s) : start T W r ≤ start T W s :=
  Nat.mul_le_mul_right _ h

theorem rangeEnd_eq_start_succ (T W r : Nat) (h : r + 1 < W) :
    rangeEnd T W r = start T W (r + 1) := by
  have : r ≠ W - 1 := by omega
  simp [rangeEnd, this, start, Nat.succ_mul]

theorem rangeEnd_last (T W : Nat) : rangeEnd T W (W - 1) = T := by
  simp [rangeEnd]

theorem start_le_rangeEnd (T W r : Nat) (hr : r < W) : start T W r ≤ rangeEnd T W r := by
  by_cases h : r = W - 1
  · subst h
    rw [rangeEnd_last]
    exact start_le_numTets T W _ hr
  · simp [rangeEnd, h]

theorem rangeEnd_le_numTets (T W r : Nat) (hr : r < W) : rangeEnd T W r ≤ T := by
  by_cases h : r = W - 1
  · subst h
    rw [rangeEnd_last]
  · rw [rangeEnd_eq_start_succ T W r (by omega)]
    exact start_le_numTets T W _ (by omega)

theorem bound_mono (T W : Nat) : Monotone (bound T W) := by
  intro a b hab
  unfold bound
  split_ifs with h1 h2 h2
  · exact start_mono T W hab
  · exact start_le_numTets T W a h1
  · omega
  · exact le_rfl

theorem rangeEnd_eq_bound (T W r : Nat) (hr : r < W) : rangeEnd T W r = bound T W (r + 1) := by
  unfold bound
  by_cases h : r + 1 < W
  · simp [h, rangeEnd_eq_start_succ T W r h]
  · have : r = W - 1 := by omega
    subst this
    simp [h, rangeEnd_last]

theorem sum_sizes (T W : Nat) (hW : 1 ≤ W) :
    ∑ r in Finset.range W, (rangeEnd T W r - start T W r) = T := by
  have h1 : ∑ r in Finset.range W, (rangeEnd T W r - start T W r)
      = ∑ r in Finset.range W, (bound T W (r + 1) - bound T W r) := by
    apply Finset.sum_congr rfl
    intro r hr
    have hr' : r < W := Finset.mem_range.mp hr
    rw [rangeEnd_eq_bound T W r hr']
    simp [bound, hr']
  rw [h1, Finset.sum_range_tsub (bound_mono T W)]
  have : 0 < W := hW
  simp [bound, this, start]

theorem owner_unique (T W : Nat) (hW : 1 ≤ W) (i : Nat) (hi : i < T) :
    ∃! r, r < W ∧ start T W r ≤ i ∧ i < rangeEnd T W r := by
  -- existence: the least r with i < rangeEnd r
  have hex : ∃ r, r < W ∧ i < rangeEnd T W r := ⟨W - 1, by omega, by rw [rangeEnd_last]; exact hi⟩
  classical
  let r := Nat.find hex
  have hr : r < W ∧ i < rangeEnd T W r := Nat.find_spec hex
  have hstart : start T W r ≤ i := by
    rcases Nat.eq_zero_or_pos r with h0 | hpos
    · rw [h0]; simp [start]
    · have hmin := Nat.find_min hex (m := r - 1) (by omega)
      have hlt : r - 1 < W := by omega
      have : ¬ i < rangeEnd T W (r - 1) := fun h => hmin ⟨hlt, h⟩
      rw [rangeEnd_eq_start_succ T W (r - 1) (by omega)] at this
      have e : r - 1 + 1 = r := by omega
      rw [e] at this
      omega
  refine ⟨r, ⟨hr.1, hstart, hr.2⟩, ?_⟩
  rintro s ⟨hs, hs1, hs2⟩
  rcases Nat.lt_trichotomy s r with h | h | h
  · -- rangeEnd s ≤ start r
    have : rangeEnd T W s = start T W (s + 1) := rangeEnd_eq_start_succ T W s (by omega)
    have := start_mono T W (show s + 1 ≤ r by omega)
    omega
  · exact h
  · have : rangeEnd T W r = start T W (r + 1) := rangeEnd_eq_start_succ T W r (by omega)
    have := start_mono T W (show r + 1 ≤ s by omega)
    omega

/-- Claim C1: for `T ≥ 0` tetrahedra and `W ≥ 1` ranks the ranges `[start r, end r)` tile
`[0, T)`: `start 0 = 0`, `end r = start (r+1)` below the last rank, `end (W-1) = T`,
`start r ≤ end r ≤ T`, every index below `T` lies in exactly one range, and the range sizes
sum to `T`. -/
theorem partition_tiles (T W : Nat) (hW : 1 ≤ W) :
    start T W 0 = 0 ∧
    (∀ r, r + 1 < W → rangeEnd T W r = start T W (r + 1)) ∧
    rangeEnd T W (W - 1) = T ∧
    (∀ r, r < W → start T W r ≤ rangeEnd T W r ∧ rangeEnd T W r ≤ T) ∧
    (∀ i, i < T → ∃! r, r < W ∧ start T W r ≤ i ∧ i < rangeEnd T W r) ∧
    ∑ r in Finset.range W, (rangeEnd T W r - start T W r) = T :=
  ⟨by simp [start], rangeEnd_eq_start_succ T W, rangeEnd_last T W,
   fun r hr => ⟨start_le_rangeEnd T W r hr, rangeEnd_le_numTets T W r hr⟩,
   owner_unique T W hW, sum_sizes T W hW⟩

/-- Claim C1 at `T = 10`, `W = 3`. -/
theorem partition_tiles_witness :
    1 ≤ 3 ∧ (start 10 3 0 = 0 ∧
    (∀ r, r + 1 < 3 → rangeEnd 10 3 r = start 10 3 (r + 1)) ∧
    rangeEnd 10 3 (3 - 1) = 10 ∧
    (∀ r, r < 3 → start 10 3 r ≤ rangeEnd 10 3 r ∧ rangeEnd 10 3 r ≤ 10) ∧
    (∀ i, i < 10 → ∃! r, r < 3 ∧ start 10 3 r ≤ i ∧ i < rangeEnd 10 3 r) ∧
    ∑ r in Finset.range 3, (rangeEnd 10 3 r - start 10 3 r) = 10) :=
  ⟨by decide, partition_tiles 10 3 (by decide)⟩

/-- Claim C3: with `base = T / W`, every rank but the last gets exactly `base` elements, the
last gets `T - base * (W-1) = base + T % W`; for `W = 3`, `T = 10` the ranges are
`[0,3)`, `[3,6)`, `[6,10)`. -/
theorem partition_sizes (T W : Nat) (hW : 1 ≤ W) :
    (∀ r, r + 1 < W → rangeEnd T W r - start T W r = T / W) ∧
    rangeEnd T W (W - 1) - start T W (W - 1) = T - (T / W) * (W - 1) ∧
    T - (T / W) * (W - 1) = T / W + T % W ∧
    (List.range 3).map (fun r => (start 10 3 r, rangeEnd 10 3 r)) = [(0, 3), (3, 6), (6, 10)] := by
  refine ⟨?_, ?_, ?_, by decide⟩
  · intro r hr
    have : r ≠ W - 1 := by omega
    simp [rangeEnd, this, perRank]
  · rw [rangeEnd_last]
    simp [start, perRank, Nat.mul_comm]
  · obtain ⟨w, rfl⟩ : ∃ w, W = w + 1 := ⟨W - 1, by omega⟩
    have h : T / (w + 1) * w + T / (w + 1) + T % (w + 1) = T := by
      rw [← Nat.mul_succ, Nat.mul_comm]
      exact Nat.div_add_mod T (w + 1)
    rw [Nat.add_sub_cancel]
    generalize T / (w + 1) * w = p at h ⊢
    generalize T / (w + 1) = q at h ⊢
    generalize T % (w + 1) = m at h ⊢
    omega

/-- Claim C3 at `T = 11`, `W = 4`. -/
theorem partition_sizes_witness :
    1 ≤ 4 ∧
    ((∀ r, r + 1 < 4 → rangeEnd 11 4 r - start 11 4 r = 11 / 4) ∧
    rangeEnd 11 4 (4 - 1) - start 11 4 (4 - 1) = 11 - (11 / 4) * (4 - 1) ∧
    11 - (11 / 4) * (4 - 1) = 11 / 4 + 11 % 4 ∧
    (List.range 3).map (fun r => (start 10 3 r, rangeEnd 10 3 r)) = [(0, 3), (3, 6), (6, 10)]) :=
  ⟨by decide, partition_sizes 11 4 (by decide)⟩

/-! ## Algebra of the double operations -/

namespace Dbl

variable {K : Type} [LinearOrderedField K]

theorem add_assoc_dbl (a b c : Dbl K) : add (add a b) c = add a (add b c) := by
  cases a <;> cases b <;> cases c <;> simp [add, add_assoc]

theorem add_zero_dbl (a : Dbl K) : add a (fin 0) = a := by
  cases a <;> simp [add]

theorem zero_add_dbl (a : Dbl K) : add (fin 0) a = a := by
  cases a <;> simp [add]

theorem stdMin_fin_fin (a b : K) : stdMin (fin a) (fin b) = fin (min a b) := by
  simp only [stdMin, lt, decide_eq_true_eq]
  split_ifs with h
  · rw [min_eq_right h.le]
  · rw [min_eq_left (not_lt.mp h)]

theorem stdMax_fin_fin (a b : K) : stdMax (fin a) (fin b) = fin (max a b) := by
  simp only [stdMax, lt, decide_eq_true_eq]
  split_ifs with h
  · rw [max_eq_right h.le]
  · rw [max_eq_left (not_lt.mp h)]

theorem mpiMin_fin_fin (a b : K) : mpiMin (fin a) (fin b) = fin (min a b) := by
  simp only [mpiMin, lt, decide_eq_true_eq]
  split_ifs with h
  · rw [min_eq_left h.le]
  · rw [min_eq_right (not_lt.mp h)]

theorem mpiMax_fin_fin (a b : K) : mpiMax (fin a) (fin b) = fin (max a b) := by
  simp only [mpiMax, lt, decide_eq_true_eq]
  split_ifs with h
  · rw [max_eq_right h.le]
  · rw [max_eq_left (not_lt.mp h)]

theorem ite_lt_min (a b : K) : (if a < b then fin a else fin b) = fin (min a b) := by
  split_ifs with h
  · rw [min_eq_left h.le]
  · rw [min_eq_right (not_lt.mp h)]

theorem ite_lt_max (a b : K) : (if a < b then fin b else fin a) = fin (max a b) := by
  split_ifs with h
  · rw [max_eq_right h.le]
  · rw [max_eq_left (not_lt.mp h)]

theorem stdMin_isNum (m y : Dbl K) (hm : IsNum m) : IsNum (stdMin m y) := by
  cases m <;> cases y <;> simp_all [stdMin, lt, IsNum, ite_lt_min]

theorem stdMax_isNonneg (m y : Dbl K) (hm : IsNonneg m) : IsNonneg (stdMax m y) := by
  cases m <;> cases y <;> simp_all [stdMax, lt, IsNonneg, ite_lt_max]

theorem mpiMin_pinf_right (m : Dbl K) (hm : IsNum m) : mpiMin m pinf = m := by
  cases m <;> simp_all [mpiMin, lt, IsNum]

theorem mpiMin_pinf_left (m : Dbl K) (hm : IsNum m) : mpiMin pinf m = m := by
  cases m <;> simp_all [mpiMin, lt, IsNum]

theorem mpiMax_zero_right (m : Dbl K) (hm : IsNonneg m) : mpiMax m (fin 0) = m := by
  cases m <;> simp_all [mpiMax, lt, IsNonneg, ite_lt_max]

theorem mpiMax_zero_left (m : Dbl K) (hm : IsNonneg m) : mpiMax (fin 0) m = m := by
  cases m <;> simp_all [mpiMax, lt, IsNonneg, ite_lt_max]

theorem stdMin_pinf_fin (b : K) : stdMin pinf (fin b) = fin b := by
  simp [stdMin, lt]

theorem stdMax_zero_fin (b : K) : stdMax (fin 0) (fin b) = fin (max 0 b) :=
  stdMax_fin_fin 0 b

theorem min_key (m y z : Dbl K) (hm : IsNum m) (hz : IsNum z) :
    mpiMin (stdMin m y) z = mpiMin m (mpiMin (stdMin pinf y) z) := by
  cases m <;> cases y <;> cases z <;> first
    | (rw [stdMin_fin_fin, mpiMin_fin_fin, stdMin_pinf_fin, mpiMin_fin_fin, mpiMin_fin_fin,
        min_assoc])
    | simp_all [mpiMin, stdMin, lt, IsNum, ite_lt_min, min_comm]

theorem max_key (m y z : Dbl K) (hm : IsNonneg m) (hz : IsNonneg z) :
    mpiMax (stdMax m y) z = mpiMax m (mpiMax (stdMax (fin 0) y) z) := by
  cases m <;> cases y <;> cases z <;> first
    | (rw [stdMax_fin_fin, mpiMax_fin_fin, stdMax_zero_fin, mpiMax_fin_fin, mpiMax_fin_fin,
        max_assoc, max_assoc, max_eq_right (le_max_of_le_right hz)])
    | simp_all [mpiMax, stdMax, lt, IsNonneg, ite_lt_max, max_comm]

end Dbl
/-! ## Local aggregates and their reduction -/

section AggTheory

variable {K : Type} [LinearOrderedField K]

theorem collect_eq_some_iff {α : Type} (l : List (Option α)) (rs : List α) :
    collect l = some rs ↔ l = rs.map some := by
  induction l generalizing rs with
  | nil => cases rs <;> simp [collect]
  | cons x l ih =>
    cases x with
    | none => cases rs <;> simp [collect]
    | some a =>
      cases rs with
      | nil => simp [collect]
      | cons r rs =>
        simp only [collect, Option.map_eq_some', List.map_cons, List.cons.injEq,
          Option.some.injEq]
        constructor
        · rintro ⟨t, ht, h1, h2⟩
          exact ⟨h1, by rw [← h2]; exact (ih t).mp ht⟩
        · rintro ⟨h1, h2⟩
          exact ⟨rs, (ih rs).mpr h2, h1, rfl⟩

theorem collect_eq_none_iff {α : Type} (l : List (Option α)) :
    collect l = none ↔ none ∈ l := by
  induction l with
  | nil => simp [collect]
  | cons x l ih =>
    cases x with
    | none => simp [collect]
    | some a => simp [collect, ih]

theorem Agg.init_valid : (Agg.init : Agg K).Valid := by
  simp [Agg.Valid, Agg.init, Dbl.IsNum, Dbl.IsNonneg]

theorem Agg.step_valid (a : Agg K) (r : Dbl K) (h : a.Valid) : (a.step r).Valid :=
  ⟨Dbl.stdMin_isNum _ _ h.1, Dbl.stdMax_isNonneg _ _ h.2⟩

theorem Agg.foldl_step_valid (rs : List (Dbl K)) (a : Agg K) (h : a.Valid) :
    (rs.foldl Agg.step a).Valid := by
  induction rs generalizing a with
  | nil => exact h
  | cons r rs ih => exact ih _ (Agg.step_valid a r h)

theorem Agg.merge_init_right (a : Agg K) (h : a.Valid) : a.merge Agg.init = a := by
  cases a
  simp only [Agg.merge, Agg.init, Agg.Valid] at *
  rw [Dbl.mpiMin_pinf_right _ h.1, Dbl.mpiMax_zero_right _ h.2, Dbl.add_zero_dbl]

theorem Agg.merge_init_left (a : Agg K) (h : a.Valid) : Agg.init.merge a = a := by
  cases a
  simp only [Agg.merge, Agg.init, Agg.Valid] at *
  rw [Dbl.mpiMin_pinf_left _ h.1, Dbl.mpiMax_zero_left _ h.2, Dbl.zero_add_dbl]

theorem Agg.merge_step (a z : Agg K) (y : Dbl K) (ha : a.Valid) (hz : z.Valid) :
    (a.step y).merge z = a.merge ((Agg.init.step y).merge z) := by
  simp only [Agg.merge, Agg.step, Agg.init, Agg.mk.injEq]
  refine ⟨Dbl.min_key _ _ _ ha.1 hz.1, Dbl.max_key _ _ _ ha.2 hz.2, ?_⟩
  rw [Dbl.zero_add_dbl, Dbl.add_assoc_dbl]

theorem Agg.foldl_step_eq_merge (ys : List (Dbl K)) (a : Agg K) (ha : a.Valid) :
    ys.foldl Agg.step a = a.merge (ys.foldl Agg.step Agg.init) := by
  induction ys generalizing a with
  | nil => exact (Agg.merge_init_right a ha).symm
  | cons y ys ih =>
    simp only [List.foldl_cons]
    rw [ih _ (Agg.step_valid a y ha), ih _ (Agg.step_valid _ y Agg.init_valid)]
    exact Agg.merge_step a _ y ha (Agg.foldl_step_valid ys _ Agg.init_valid)

theorem Agg.foldl_step_append (xs ys : List (Dbl K)) :
    (xs ++ ys).foldl Agg.step Agg.init
      = (xs.foldl Agg.step Agg.init).merge (ys.foldl Agg.step Agg.init) := by
  rw [List.foldl_append]
  exact Agg.foldl_step_eq_merge ys _ (Agg.foldl_step_valid xs _ Agg.init_valid)

theorem reduce_chunks (c0 : List (Dbl K)) (cs : List (List (Dbl K))) :
    (cs.map (fun c => c.foldl Agg.step Agg.init)).foldl Agg.merge
        (c0.foldl Agg.step Agg.init)
      = (c0 ++ cs.flatten).foldl Agg.step Agg.init := by
  induction cs generalizing c0 with
  | nil => simp
  | cons c cs ih =>
    simp only [List.map_cons, List.foldl_cons, List.flatten_cons]
    rw [← Agg.foldl_step_append, ih, List.append_assoc]

theorem foldl_merge_fields (l0 : Agg K) (ls : List (Agg K)) :
    ls.foldl Agg.merge l0
      = ⟨mpiReduce Dbl.mpiMin l0.min (ls.map Agg.min),
         mpiReduce Dbl.mpiMax l0.max (ls.map Agg.max),
         mpiReduce Dbl.add l0.sum (ls.map Agg.sum)⟩ := by
  induction ls generalizing l0 with
  | nil => simp [mpiReduce]
  | cons l ls ih =>
    simp only [List.foldl_cons, List.map_cons, mpiReduce]
    rw [ih]
    simp [mpiReduce, Agg.merge]

end AggTheory
/-! ## The MPI variant computes the single-process statistics -/

section RunTheory

variable {K : Type} [LinearOrderedField K]

theorem localLoop_eq_some (sqrt : K → K) (points : List (Vec3 K)) (tets : List Tet)
    (rs : List (Dbl K)) (h : tets.map (tetRatio sqrt points) = rs.map some)
    (n i : Nat) (acc : Agg K) (hin : i + n ≤ rs.length) :
    localLoop sqrt points tets i n acc = some (((rs.drop i).take n).foldl Agg.step acc) := by
  induction n generalizing i acc with
  | zero => simp [localLoop]
  | succ n ih =>
    have hi : i < rs.length := by omega
    have hlen : tets.length = rs.length := by
      have := congrArg List.length h
      simpa using this
    have hti : i < tets.length := by omega
    have hget := congrArg (fun l => l[i]?) h
    simp only [List.getElem?_map, List.getElem?_eq_getElem hi, List.getElem?_eq_getElem hti,
      Option.map_some'] at hget
    rw [localLoop, List.getElem?_eq_getElem hti]
    simp only
    rw [Option.some.inj hget]
    simp only
    rw [ih (i + 1) _ (by omega), List.drop_eq_getElem_cons hi, List.take_succ_cons,
      List.foldl_cons]

theorem localLoop_eq_none (sqrt : K → K) (points : List (Vec3 K)) (tets : List Tet)
    (j : Nat) (hj : j < tets.length) (hnone : tetRatio sqrt points tets[j] = none)
    (n i : Nat) (acc : Agg K) (hij : i ≤ j) (hjn : j < i + n) :
    localLoop sqrt points tets i n acc = none := by
  induction n generalizing i acc with
  | zero => omega
  | succ n ih =>
    have hti : i < tets.length := by omega
    rw [localLoop, List.getElem?_eq_getElem hti]
    simp only
    rcases Nat.eq_or_lt_of_le hij with heq | hlt
    · subst heq
      rw [hnone]
    · cases hr : tetRatio sqrt points tets[i] with
      | none => rfl
      | some r => exact ih (i + 1) _ hlt (by omega)

omit [LinearOrderedField K] in
theorem flatten_slices (rs : List (Dbl K)) (W k : Nat) (hW : 1 ≤ W) (hk : k ≤ W) :
    ((List.range k).map (slice rs W)).flatten = rs.take (bound rs.length W k) := by
  induction k with
  | zero =>
    have h : 0 < W := hW
    simp [bound, h, start]
  | succ k ih =>
    have hkW : k < W := hk
    rw [List.range_succ, List.map_append, List.flatten_append, ih (by omega)]
    simp only [List.map_cons, List.map_nil, List.flatten_cons, List.flatten_nil,
      List.append_nil, slice]
    have h1 : start rs.length W k = bound rs.length W k := by simp [bound, hkW]
    have h2 : rangeEnd rs.length W k = bound rs.length W (k + 1) :=
      rangeEnd_eq_bound _ _ _ hkW
    have h3 : bound rs.length W k ≤ bound rs.length W (k + 1) :=
      bound_mono _ _ (Nat.le_succ k)
    rw [h1, h2]
    have h4 : bound rs.length W (k + 1)
        = bound rs.length W k + (bound rs.length W (k + 1) - bound rs.length W k) := by
      omega
    conv_rhs => rw [h4]
    rw [List.take_add]

omit [LinearOrderedField K] in
theorem flatten_all_slices (rs : List (Dbl K)) (W : Nat) (hW : 1 ≤ W) :
    ((List.range W).map (slice rs W)).flatten = rs := by
  rw [flatten_slices rs W W hW le_rfl]
  simp [bound]

theorem localAgg_eq_some (sqrt : K → K) (points : List (Vec3 K)) (tets : List Tet)
    (rs : List (Dbl K)) (h : tets.map (tetRatio sqrt points) = rs.map some)
    (W r : Nat) (hr : r < W) :
    localAgg sqrt points tets W r = some ((slice rs W r).foldl Agg.step Agg.init) := by
  have hlen : tets.length = rs.length := by
    have := congrArg List.length h
    simpa using this
  unfold localAgg slice
  rw [hlen]
  apply localLoop_eq_some sqrt points tets rs h
  have h1 := start_le_rangeEnd rs.length W r hr
  have h2 := rangeEnd_le_numTets rs.length W r hr
  omega

/-- With at least one rank, the MPI variant reports the single-process statistics. -/
theorem mpiRun_eq_singleRun (sqrt : K → K) (points : List (Vec3 K)) (tets : List Tet)
    (W : Nat) (hW : 1 ≤ W) :
    mpiRun sqrt points tets W = singleRun sqrt points tets := by
  cases hrs : ratios sqrt points tets with
  | some rs =>
    have h : tets.map (tetRatio sqrt points) = rs.map some :=
      (collect_eq_some_iff _ _).mp hrs
    have hlen : tets.length = rs.length := by
      have := congrArg List.length h
      simpa using this
    have hloc : (List.range W).map (localAgg sqrt points tets W)
        = ((List.range W).map (fun r => (slice rs W r).foldl Agg.step Agg.init)).map some := by
      rw [List.map_map]
      apply List.map_congr_left
      intro r hr
      exact localAgg_eq_some sqrt points tets rs h W r (List.mem_range.mp hr)
    have hcol := (collect_eq_some_iff _ _).mpr hloc
    obtain ⟨w, rfl⟩ : ∃ w, W = w + 1 := ⟨W - 1, by omega⟩
    have hflat := flatten_all_slices rs (w + 1) hW
    rw [List.range_succ_eq_map] at hcol hflat
    simp only [List.map_cons] at hcol hflat
    simp only [mpiRun, singleRun, hrs, Option.map_some']
    rw [List.range_succ_eq_map]
    simp only [List.map_cons, hcol]
    have hred := reduce_chunks (slice rs (w + 1) 0)
      ((List.map Nat.succ (List.range w)).map (slice rs (w + 1)))
    rw [List.flatten_cons] at hflat
    rw [hflat, List.map_map, foldl_merge_fields] at hred
    have e1 := congrArg Agg.min hred
    have e2 := congrArg Agg.max hred
    have e3 := congrArg Agg.sum hred
    simp only [List.map_map] at e1 e2 e3 ⊢
    simp only [statistics, hlen]
    rw [← e1, ← e2, ← e3]
    rfl
  | none =>
    have hnone : none ∈ tets.map (tetRatio sqrt points) := (collect_eq_none_iff _).mp hrs
    obtain ⟨tet, htet, hr⟩ := List.mem_map.mp hnone
    obtain ⟨j, hj, rfl⟩ := List.getElem_of_mem htet
    obtain ⟨r, ⟨hrW, hs, he⟩, -⟩ := owner_unique tets.length W hW j hj
    have hl : localAgg sqrt points tets W r = none := by
      unfold localAgg
      exact localLoop_eq_none sqrt points tets j hj hr _ _ _ hs (by omega)
    have hmem : none ∈ (List.range W).map (localAgg sqrt points tets W) :=
      List.mem_map.mpr ⟨r, List.mem_range.mpr hrW, hl⟩
    simp only [mpiRun, singleRun, hrs, (collect_eq_none_iff _).mpr hmem, Option.map_none']

end RunTheory
section RunClaims

variable {K : Type} [LinearOrderedField K]

theorem localLoop_all (sqrt : K → K) (points : List (Vec3 K)) (tets : List Tet) :
    localLoop sqrt points tets 0 tets.length Agg.init
      = (ratios sqrt points tets).map (fun rs => rs.foldl Agg.step Agg.init) := by
  cases hrs : ratios sqrt points tets with
  | some rs =>
    have h : tets.map (tetRatio sqrt points) = rs.map some :=
      (collect_eq_some_iff _ _).mp hrs
    have hlen : tets.length = rs.length := by
      have := congrArg List.length h
      simpa using this
    rw [localLoop_eq_some sqrt points tets rs h _ 0 _ (by omega), hlen]
    simp
  | none =>
    have hnone : none ∈ tets.map (tetRatio sqrt points) := (collect_eq_none_iff _).mp hrs
    obtain ⟨tet, htet, hr⟩ := List.mem_map.mp hnone
    obtain ⟨j, hj, rfl⟩ := List.getElem_of_mem htet
    rw [localLoop_eq_none sqrt points tets j hj hr _ 0 _ (Nat.zero_le _) (by omega)]
    rfl

/-- Claim C2: for every mesh and all rank counts `W1, W2 ≥ 1`, the MPI variant reports the
same minimum, maximum, sum and average with `W1` ranks as with `W2` ranks, and these are the
values the single-process variant computes over the whole ratio list. -/
theorem reduction_independent (sqrt : K → K) (points : List (Vec3 K)) (tets : List Tet)
    (W1 W2 : Nat) (h1 : 1 ≤ W1) (h2 : 1 ≤ W2) :
    mpiRun sqrt points tets W1 = mpiRun sqrt points tets W2 ∧
    mpiRun sqrt points tets W1 = singleRun sqrt points tets := by
  rw [mpiRun_eq_singleRun sqrt points tets W1 h1, mpiRun_eq_singleRun sqrt points tets W2 h2]
  exact ⟨rfl, rfl⟩

/-- Claim C2 on the sample mesh with 3 and 2 ranks. -/
theorem reduction_independent_witness :
    1 ≤ 3 ∧ 1 ≤ 2 ∧
    (mpiRun sqrtQ degPoints degTets 3 = mpiRun sqrtQ degPoints degTets 2 ∧
     mpiRun sqrtQ degPoints degTets 3 = singleRun sqrtQ degPoints degTets) :=
  ⟨by decide, by decide, reduction_independent sqrtQ degPoints degTets 3 2 (by decide)
    (by decide)⟩

/-- Claim C8: with fewer tetrahedra than ranks, every rank but the last has the empty range
and the local aggregate `(+inf, 0, 0)`; that aggregate is a two-sided identity of the
`MIN / MAX / SUM` merge on every aggregate of extended numbers whose max is `≥ 0`; the last
rank has the range `[0, T)` and the global result is its aggregate. -/
theorem empty_ranges_identity (sqrt : K → K) (points : List (Vec3 K)) (tets : List Tet)
    (W : Nat) (hW : 1 ≤ W) (hT : tets.length < W) :
    (∀ r, r + 1 < W →
      start tets.length W r = rangeEnd tets.length W r ∧
      localAgg sqrt points tets W r = some Agg.init) ∧
    (∀ a : Agg K, a.min.IsNum → a.max.IsNonneg →
      Agg.init.merge a = a ∧ a.merge Agg.init = a) ∧
    (start tets.length W (W - 1) = 0 ∧ rangeEnd tets.length W (W - 1) = tets.length) ∧
    mpiRun sqrt points tets W
      = (localAgg sqrt points tets W (W - 1)).map
          (fun a => ⟨a.min, a.max, a.sum, Dbl.div a.sum (Dbl.fin (tets.length : K))⟩) := by
  have hper : perRank tets.length W = 0 := Nat.div_eq_of_lt hT
  have hstart : ∀ r, start tets.length W r = 0 := by
    intro r
    simp [start, hper]
  refine ⟨?_, ?_, ⟨hstart _, rangeEnd_last _ _⟩, ?_⟩
  · intro r hr
    have hne : r ≠ W - 1 := by omega
    have hend : rangeEnd tets.length W r = 0 := by
      simp [rangeEnd, hne, hstart, hper]
    refine ⟨by rw [hstart, hend], ?_⟩
    simp [localAgg, hstart, hend, localLoop]
  · intro a hmin hmax
    exact ⟨Agg.merge_init_left a ⟨hmin, hmax⟩, Agg.merge_init_right a ⟨hmin, hmax⟩⟩
  · rw [mpiRun_eq_singleRun sqrt points tets W hW]
    unfold localAgg
    rw [hstart, rangeEnd_last, Nat.sub_zero, localLoop_all]
    cases hrs : ratios sqrt points tets with
    | none => simp [singleRun, hrs]
    | some rs =>
      have h : tets.map (tetRatio sqrt points) = rs.map some :=
        (collect_eq_some_iff _ _).mp hrs
      have hlen : tets.length = rs.length := by
        have := congrArg List.length h
        simpa using this
      simp [singleRun, hrs, statistics, hlen]

/-- Claim C8 on the sample mesh (2 tetrahedra) with 3 ranks. -/
theorem empty_ranges_identity_witness :
    1 ≤ 3 ∧ degTets.length < 3 ∧
    ((∀ r, r + 1 < 3 →
      start degTets.length 3 r = rangeEnd degTets.length 3 r ∧
      localAgg sqrtQ degPoints degTets 3 r = some Agg.init) ∧
    (∀ a : Agg ℚ, a.min.IsNum → a.max.IsNonneg →
      Agg.init.merge a = a ∧ a.merge Agg.init = a) ∧
    (start degTets.length 3 (3 - 1) = 0 ∧ rangeEnd degTets.length 3 (3 - 1) = degTets.length) ∧
    mpiRun sqrtQ degPoints degTets 3
      = (localAgg sqrtQ degPoints degTets 3 (3 - 1)).map
          (fun a => ⟨a.min, a.max, a.sum, Dbl.div a.sum (Dbl.fin (degTets.length : ℚ))⟩)) :=
  ⟨by decide, by decide, empty_ranges_identity sqrtQ degPoints degTets 3 (by decide)
    (by decide)⟩

end RunClaims

/-! ## The geometry kernel -/

section KernelTheory

variable {K : Type} [LinearOrderedField K]

theorem edgeLen_eq_dist (sqrt : K → K) (P Q : Vec3 K) :
    edgeLen sqrt ⟨Q.x - P.x, Q.y - P.y, Q.z - P.z⟩ = dist sqrt P Q := by
  simp only [edgeLen, dist]
  congr 1
  ring

/-- The loop of `aspectRatio` in closed form. -/
theorem aspectRatio_closed (sqrt : K → K) (A B C D : Vec3 K) :
    aspectRatio sqrt A B C D
      = Dbl.div
          (Dbl.fin (max (max (max (max (max (max 0 (dist sqrt A B)) (dist sqrt A C))
            (dist sqrt A D)) (dist sqrt B C)) (dist sqrt B D)) (dist sqrt C D)))
          (Dbl.fin (min (min (min (min (min (dist sqrt A B) (dist sqrt A C))
            (dist sqrt A D)) (dist sqrt B C)) (dist sqrt B D)) (dist sqrt C D))) := by
  simp only [aspectRatio, edges, List.foldl_cons, List.foldl_nil, lenStep, edgeLen_eq_dist,
    Dbl.stdMin_pinf_fin, Dbl.stdMin_fin_fin, Dbl.stdMax_fin_fin]

theorem foldl_max_ge_init (l : List K) (a : K) : a ≤ l.foldl max a := by
  induction l generalizing a with
  | nil => exact le_rfl
  | cons x l ih => exact le_trans (le_max_left a x) (ih _)

theorem foldl_max_ge (l : List K) (a : K) : ∀ d ∈ l, d ≤ l.foldl max a := by
  induction l generalizing a with
  | nil => intro d hd; cases hd
  | cons x l ih =>
    intro d hd
    rcases List.mem_cons.mp hd with rfl | hd
    · exact le_trans (le_max_right a d) (foldl_max_ge_init l _)
    · exact ih _ d hd

theorem foldl_max_mem (l : List K) (a : K) : l.foldl max a = a ∨ l.foldl max a ∈ l := by
  induction l generalizing a with
  | nil => exact Or.inl rfl
  | cons x l ih =>
    rcases ih (max a x) with h | h
    · rcases max_choice a x with h2 | h2
      · exact Or.inl (by rw [List.foldl_cons, h, h2])
      · exact Or.inr (by rw [List.foldl_cons, h, h2]; exact List.mem_cons_self _ _)
    · exact Or.inr (List.mem_cons_of_mem _ h)

theorem foldl_min_le_init (l : List K) (a : K) : l.foldl min a ≤ a := by
  induction l generalizing a with
  | nil => exact le_rfl
  | cons x l ih => exact le_trans (ih _) (min_le_left a x)

theorem foldl_min_le (l : List K) (a : K) : ∀ d ∈ l, l.foldl min a ≤ d := by
  induction l generalizing a with
  | nil => intro d hd; cases hd
  | cons x l ih =>
    intro d hd
    rcases List.mem_cons.mp hd with rfl | hd
    · exact le_trans (foldl_min_le_init l _) (min_le_right a d)
    · exact ih _ d hd

theorem foldl_min_mem (l : List K) (a : K) : l.foldl min a = a ∨ l.foldl min a ∈ l := by
  induction l generalizing a with
  | nil => exact Or.inl rfl
  | cons x l ih =>
    rcases ih (min a x) with h | h
    · rcases min_choice a x with h2 | h2
      · exact Or.inl (by rw [List.foldl_cons, h, h2])
      · exact Or.inr (by rw [List.foldl_cons, h, h2]; exact List.mem_cons_self _ _)
    · exact Or.inr (List.mem_cons_of_mem _ h)

/-- The closed form of `aspectRatio` as folds over the six pairwise distances. -/
theorem aspectRatio_folds (sqrt : K → K) (A B C D : Vec3 K) :
    aspectRatio sqrt A B C D
      = Dbl.div (Dbl.fin ((pairDists sqrt A B C D).foldl max 0))
          (Dbl.fin ((pairDists sqrt A B C D).tail.foldl min (dist sqrt A B))) := by
  rw [aspectRatio_closed]
  rfl

theorem sumSq_pos (P Q : Vec3 K) (h : P ≠ Q) :
    0 < (Q.x - P.x) ^ 2 + (Q.y - P.y) ^ 2 + (Q.z - P.z) ^ 2 := by
  by_contra hn
  have hx := sq_nonneg (Q.x - P.x)
  have hy := sq_nonneg (Q.y - P.y)
  have hz := sq_nonneg (Q.z - P.z)
  have h1 : (Q.x - P.x) ^ 2 = 0 := by linarith
  have h2 : (Q.y - P.y) ^ 2 = 0 := by linarith
  have h3 : (Q.z - P.z) ^ 2 = 0 := by linarith
  apply h
  cases P
  cases Q
  simp only [Vec3.mk.injEq]
  simp only [pow_eq_zero_iff, ne_eq, OfNat.ofNat_ne_zero, not_false_eq_true, sub_eq_zero]
    at h1 h2 h3
  exact ⟨h1.symm, h2.symm, h3.symm⟩

theorem dist_pos (sqrt : K → K) (hpos : ∀ x, 0 < x → 0 < sqrt x) (P Q : Vec3 K) (h : P ≠ Q) :
    0 < dist sqrt P Q :=
  hpos _ (sumSq_pos P Q h)

end KernelTheory

section KernelClaims
variable {K : Type} [LinearOrderedField K]

theorem max_div_min_of_pos (sqrt : K → K) (A B C D : Vec3 K)
    (hall : ∀ d ∈ pairDists sqrt A B C D, 0 < d) :
    ∃ M m : K, M ∈ pairDists sqrt A B C D ∧ (∀ d ∈ pairDists sqrt A B C D, d ≤ M) ∧
      m ∈ pairDists sqrt A B C D ∧ (∀ d ∈ pairDists sqrt A B C D, m ≤ d) ∧
      aspectRatio sqrt A B C D = Dbl.fin (M / m) ∧ 1 ≤ M / m := by
  have hmemAB : dist sqrt A B ∈ pairDists sqrt A B C D := List.mem_cons_self _ _
  have hM1 : ∀ d ∈ pairDists sqrt A B C D, d ≤ (pairDists sqrt A B C D).foldl max 0 :=
    foldl_max_ge _ 0
  have hM2 : (pairDists sqrt A B C D).foldl max 0 ∈ pairDists sqrt A B C D := by
    rcases foldl_max_mem (pairDists sqrt A B C D) 0 with h | h
    · have := hM1 _ hmemAB
      have := hall _ hmemAB
      linarith
    · exact h
  have hm2 : (pairDists sqrt A B C D).tail.foldl min (dist sqrt A B)
      ∈ pairDists sqrt A B C D := by
    rcases foldl_min_mem (pairDists sqrt A B C D).tail (dist sqrt A B) with h | h
    · rw [h]; exact hmemAB
    · exact List.mem_of_mem_tail h
  have hm1 : ∀ d ∈ pairDists sqrt A B C D,
      (pairDists sqrt A B C D).tail.foldl min (dist sqrt A B) ≤ d := by
    intro d hd
    rcases List.mem_cons.mp (show d ∈ dist sqrt A B :: (pairDists sqrt A B C D).tail from hd)
      with rfl | h
    · exact foldl_min_le_init _ _
    · exact foldl_min_le _ _ d h
  have hmpos := hall _ hm2
  refine ⟨_, _, hM2, hM1, hm2, hm1, ?_, ?_⟩
  · rw [aspectRatio_folds]
    simp only [Dbl.div, if_neg hmpos.ne']
  · rw [one_le_div hmpos]
    exact hm1 _ hM2

theorem sqrtQ_zero : sqrtQ 0 = 0 := by
  simp [sqrtQ]

end KernelClaims

section KernelWitness

variable {K : Type} [LinearOrderedField K]

/-- Over the reals with the real square root, `aspectRatio` of four distinct points is the
largest Euclidean distance divided by the smallest. -/
theorem aspectRatio_real (A B C D : Vec3 ℝ) (hAB : A ≠ B) (hAC : A ≠ C) (hAD : A ≠ D)
    (hBC : B ≠ C) (hBD : B ≠ D) (hCD : C ≠ D) :
    ∃ M m : ℝ, M ∈ pairDists Real.sqrt A B C D ∧ (∀ d ∈ pairDists Real.sqrt A B C D, d ≤ M) ∧
      m ∈ pairDists Real.sqrt A B C D ∧ (∀ d ∈ pairDists Real.sqrt A B C D, m ≤ d) ∧
      aspectRatio Real.sqrt A B C D = Dbl.fin (M / m) ∧ 1 ≤ M / m := by
  have hpos : ∀ x : ℝ, 0 < x → 0 < Real.sqrt x := fun x hx => Real.sqrt_pos.mpr hx
  have hall : ∀ d ∈ pairDists Real.sqrt A B C D, 0 < d := by
    intro d hd
    simp only [pairDists, List.mem_cons, List.mem_singleton, List.not_mem_nil, or_false] at hd
    rcases hd with rfl | rfl | rfl | rfl | rfl | rfl
    · exact dist_pos _ hpos A B hAB
    · exact dist_pos _ hpos A C hAC
    · exact dist_pos _ hpos A D hAD
    · exact dist_pos _ hpos B C hBC
    · exact dist_pos _ hpos B D hBD
    · exact dist_pos _ hpos C D hCD
  exact max_div_min_of_pos Real.sqrt A B C D hall

end KernelWitness

/-! ## Degenerate tetrahedra -/

section Degenerate

variable {K : Type} [LinearOrderedField K]

theorem foldl_lenStepR (rnd : K → Dbl K) (sqrt : K → K) (es : List (Vec3 (Dbl K)))
    (a b : Dbl K) :
    es.foldl (lenStepR rnd sqrt) (a, b)
      = ((es.map (edgeLenR rnd sqrt)).foldl Dbl.stdMin a,
         (es.map (edgeLenR rnd sqrt)).foldl Dbl.stdMax b) := by
  induction es generalizing a b with
  | nil => rfl
  | cons e es ih => simp only [List.foldl_cons, List.map_cons, lenStepR, ih]

theorem stdMin_zero_left (y : Dbl K) (hy : y.IsNonneg) :
    Dbl.stdMin (Dbl.fin 0) y = Dbl.fin 0 := by
  cases y <;> simp_all [Dbl.stdMin, Dbl.lt, Dbl.IsNonneg]

theorem stdMin_zero_right (m : Dbl K) (hm : m.IsNonneg) :
    Dbl.stdMin m (Dbl.fin 0) = Dbl.fin 0 := by
  cases m with
  | fin a =>
    simp only [Dbl.IsNonneg] at hm
    simp only [Dbl.stdMin, Dbl.lt, decide_eq_true_eq]
    split_ifs with h
    · rfl
    · rw [le_antisymm (not_lt.mp h) hm]
  | pinf => simp [Dbl.stdMin, Dbl.lt]
  | ninf => simp [Dbl.IsNonneg] at hm
  | nan => simp [Dbl.IsNonneg] at hm

theorem stdMin_isNonneg (m y : Dbl K) (hm : m.IsNonneg) (hy : y.IsNonneg) :
    (Dbl.stdMin m y).IsNonneg := by
  simp only [Dbl.stdMin]
  split_ifs
  · exact hy
  · exact hm

theorem foldl_stdMin_zero (l : List (Dbl K)) (hl : ∀ d ∈ l, d.IsNonneg) :
    l.foldl Dbl.stdMin (Dbl.fin 0) = Dbl.fin 0 := by
  induction l with
  | nil => rfl
  | cons y l ih =>
    rw [List.foldl_cons, stdMin_zero_left y (hl y (List.mem_cons_self _ _))]
    exact ih (fun d hd => hl d (List.mem_cons_of_mem _ hd))

theorem foldl_stdMin_mem_zero (l : List (Dbl K)) (a : Dbl K) (ha : a.IsNonneg)
    (hl : ∀ d ∈ l, d.IsNonneg) (h0 : Dbl.fin 0 ∈ l) :
    l.foldl Dbl.stdMin a = Dbl.fin 0 := by
  induction l generalizing a with
  | nil => cases h0
  | cons y l ih =>
    have hl2 : ∀ d ∈ l, d.IsNonneg := fun d hd => hl d (List.mem_cons_of_mem _ hd)
    rw [List.foldl_cons]
    rcases List.mem_cons.mp h0 with h | h
    · rw [← h, stdMin_zero_right a ha]
      exact foldl_stdMin_zero l hl2
    · exact ih _ (stdMin_isNonneg a y ha (hl y (List.mem_cons_self _ _))) hl2 h

theorem foldl_stdMax_isNonneg (l : List (Dbl K)) (a : Dbl K) (ha : a.IsNonneg) :
    (l.foldl Dbl.stdMax a).IsNonneg := by
  induction l generalizing a with
  | nil => exact ha
  | cons y l ih => exact ih _ (Dbl.stdMax_isNonneg a y ha)

theorem div_zero_cases (M : Dbl K) (hM : M.IsNonneg) :
    Dbl.div M (Dbl.fin 0) = Dbl.pinf ∨ Dbl.div M (Dbl.fin 0) = Dbl.nan := by
  cases M with
  | fin a =>
    simp only [Dbl.IsNonneg] at hM
    simp only [Dbl.div, if_true]
    split_ifs with h1 h2
    · exact Or.inl rfl
    · exact absurd hM (not_le.mpr h2)
    · exact Or.inr rfl
  | pinf => simp [Dbl.div]
  | ninf => simp [Dbl.IsNonneg] at hM
  | nan => simp [Dbl.IsNonneg] at hM

theorem edgeLenR_isNonneg (rnd : K → Dbl K) (sqrt : K → K)
    (hnum : ∀ x, (rnd x).IsNum) (hnn : ∀ x, 0 ≤ x → (rnd x).IsNonneg)
    (hs : ∀ x, 0 ≤ x → 0 ≤ sqrt x) (x y z : K) :
    (edgeLenR rnd sqrt ⟨rnd x, rnd y, rnd z⟩).IsNonneg := by
  have hsq : ∀ e : Dbl K, e.IsNum → (Dbl.round rnd (Dbl.mul e e)).IsNonneg := by
    intro e he
    cases e with
    | fin a => exact hnn _ (mul_self_nonneg a)
    | pinf => simp [Dbl.mul, Dbl.round, Dbl.IsNonneg]
    | ninf => simp [Dbl.mul, Dbl.round, Dbl.IsNonneg]
    | nan => simp [Dbl.IsNum] at he
  have hadd : ∀ a b : Dbl K, a.IsNonneg → b.IsNonneg →
      (Dbl.round rnd (Dbl.add a b)).IsNonneg := by
    intro a b ha hb
    cases a <;> cases b <;> simp_all [Dbl.add, Dbl.round, Dbl.IsNonneg]
    exact hnn _ (add_nonneg ha hb)
  have hsqrt : ∀ a : Dbl K, a.IsNonneg → (Dbl.round rnd (Dbl.sqrtD sqrt a)).IsNonneg := by
    intro a ha
    cases a with
    | fin a =>
      simp only [Dbl.IsNonneg] at ha
      simp only [Dbl.sqrtD, if_neg (not_lt.mpr ha), Dbl.round]
      exact hnn _ (hs a ha)
    | pinf => simp [Dbl.sqrtD, Dbl.round, Dbl.IsNonneg]
    | ninf => simp [Dbl.IsNonneg] at ha
    | nan => simp [Dbl.IsNonneg] at ha
  exact hsqrt _ (hadd _ _ (hadd _ _ (hsq _ (hnum x)) (hsq _ (hnum y))) (hsq _ (hnum z)))

theorem edgeLenR_zero (rnd : K → Dbl K) (sqrt : K → K) (hr0 : rnd 0 = Dbl.fin 0)
    (h0 : sqrt 0 = 0) :
    edgeLenR rnd sqrt ⟨rnd 0, rnd 0, rnd 0⟩ = Dbl.fin 0 := by
  simp [edgeLenR, hr0, Dbl.mul, Dbl.add, Dbl.sqrtD, Dbl.round, h0]

/-- On doubles too, whatever overflows or underflows: with two vertices at the same position
one edge has length zero, so `minLen = 0` and the quotient is `+inf` or NaN. -/
theorem aspectRatioR_degenerate (rnd : K → Dbl K) (sqrt : K → K) (hr0 : rnd 0 = Dbl.fin 0)
    (hnum : ∀ x, (rnd x).IsNum) (hnn : ∀ x, 0 ≤ x → (rnd x).IsNonneg) (h0 : sqrt 0 = 0)
    (hpos : ∀ x, 0 < x → 0 < sqrt x) (A B C D : Vec3 K) (hco : Coincident A B C D) :
    aspectRatioR rnd sqrt A B C D = Dbl.pinf ∨ aspectRatioR rnd sqrt A B C D = Dbl.nan := by
  have hs : ∀ x, 0 ≤ x → 0 ≤ sqrt x := by
    intro x hx
    rcases hx.eq_or_lt with h | h
    · rw [← h, h0]
    · exact (hpos x h).le
  have hl : ∀ d ∈ (edgesR rnd A B C D).map (edgeLenR rnd sqrt), d.IsNonneg := by
    intro d hd
    obtain ⟨e, he, rfl⟩ := List.mem_map.mp hd
    simp only [edgesR, List.mem_cons, List.mem_singleton, List.not_mem_nil, or_false] at he
    rcases he with rfl | rfl | rfl | rfl | rfl | rfl <;>
      exact edgeLenR_isNonneg rnd sqrt hnum hnn hs _ _ _
  have hz : Dbl.fin 0 ∈ (edgesR rnd A B C D).map (edgeLenR rnd sqrt) := by
    have hzero := edgeLenR_zero rnd sqrt hr0 h0
    simp only [edgesR, List.map_cons, List.map_nil, List.mem_cons, List.mem_singleton,
      List.not_mem_nil, or_false]
    rcases hco with h | h | h | h | h | h <;> subst h <;> simp only [sub_self, hzero, true_or,
      or_true]
  have hmin := foldl_stdMin_mem_zero _ Dbl.pinf (by simp [Dbl.IsNonneg]) hl hz
  have hmax := foldl_stdMax_isNonneg ((edgesR rnd A B C D).map (edgeLenR rnd sqrt))
    (Dbl.fin 0) (by simp [Dbl.IsNonneg])
  simp only [aspectRatioR, foldl_lenStepR, hmin]
  rcases div_zero_cases _ hmax with h | h
  · exact Or.inl (by rw [h]; rfl)
  · exact Or.inr (by rw [h]; rfl)

theorem toDouble_zero : toDouble 0 = Dbl.fin 0 := by
  norm_num [toDouble]

theorem toDouble_isNum (x : ℚ) : (toDouble x).IsNum := by
  simp only [toDouble]
  split_ifs <;> simp [Dbl.IsNum]

theorem toDouble_isNonneg (x : ℚ) (hx : 0 ≤ x) : (toDouble x).IsNonneg := by
  simp only [toDouble]
  split_ifs with h1 h2 h3
  · simp [Dbl.IsNonneg]
  · exfalso
    have : (0 : ℚ) < 2 ^ 1024 - 2 ^ 970 := by norm_num
    linarith
  · simp [Dbl.IsNonneg]
  · exact hx

/-- The double range `toDouble` is such a way of storing results. -/
theorem aspectRatioR_toDouble_degenerate (sqrt : ℚ → ℚ) (h0 : sqrt 0 = 0)
    (hpos : ∀ x, 0 < x → 0 < sqrt x) (A B C D : Vec3 ℚ) (hco : Coincident A B C D) :
    aspectRatioR toDouble sqrt A B C D = Dbl.pinf ∨
      aspectRatioR toDouble sqrt A B C D = Dbl.nan :=
  aspectRatioR_degenerate toDouble sqrt toDouble_zero toDouble_isNum toDouble_isNonneg h0 hpos
    A B C D hco

/-- At `A = B = (0,0,0)`, `C = (2^-600,0,0)`, `D = (2^-599,0,0)` every square underflows to
zero on doubles, so `maxLen = minLen = 0` and the quotient is NaN, although not all four
vertices coincide; in exact arithmetic it is `+inf`. -/
theorem aspectRatioR_underflow_nan :
    aspectRatioR toDouble sqrtQ ⟨0, 0, 0⟩ ⟨0, 0, 0⟩ ⟨1 / 2 ^ 600, 0, 0⟩ ⟨1 / 2 ^ 599, 0, 0⟩
      = Dbl.nan := by
  norm_num [aspectRatioR, edgesR, lenStepR, edgeLenR, toDouble, Dbl.round, Dbl.mul,
    Dbl.add, Dbl.sqrtD, Dbl.stdMin, Dbl.stdMax, Dbl.lt, Dbl.div, sqrtQ_zero, abs_of_nonneg]

end Degenerate

/-! ## The slot index of the lattice generator -/

theorem radix_lt (a b M N : Nat) (ha : a < M) (hb : b < N) : a * N + b < M * N := by
  calc a * N + b < a * N + N := by omega
    _ = (a + 1) * N := by ring
    _ ≤ M * N := Nat.mul_le_mul_right N ha

theorem radix_inj (a b c d N : Nat) (hb : b < N) (hd : d < N) (h : a * N + b = c * N + d) :
    a = c ∧ b = d := by
  have hN : 0 < N := by omega
  have h1 : (a * N + b) / N = a := by
    rw [Nat.add_comm, Nat.add_mul_div_right _ _ hN, Nat.div_eq_of_lt hb, Nat.zero_add]
  have h2 : (c * N + d) / N = c := by
    rw [Nat.add_comm, Nat.add_mul_div_right _ _ hN, Nat.div_eq_of_lt hd, Nat.zero_add]
  have hac : a = c := by rw [← h1, ← h2, h]
  subst hac
  exact ⟨rfl, by omega⟩

theorem cell_lt (N i j k : Nat) (hi : i < N) (hj : j < N) (hk : k < N) :
    (i * N + j) * N + k < N * N * N :=
  radix_lt _ _ _ _ (radix_lt _ _ _ _ hi hj) hk

theorem slot_lt (N i j k fi bi : Nat) (h : InLoop N i j k fi bi) :
    ((i * N + j) * N + k) * 8 + fi * 2 + bi < N * N * N * 8 := by
  obtain ⟨hi, hj, hk, hf, hb⟩ := h
  simp only [fccSize, basisSize] at hf hb
  have := radix_lt _ (fi * 2 + bi) _ 8 (cell_lt N i j k hi hj hk) (by omega)
  omega

/-- Without overflow the machine index is the plain mixed-radix number. -/
theorem idx_eq (N i j k fi bi : Nat) (hN : N * N * N * 8 < 2 ^ 64)
    (h : InLoop N i j k fi bi) :
    idx N i j k fi bi = ((i * N + j) * N + k) * 8 + fi * 2 + bi := by
  have hs := slot_lt N i j k fi bi h
  obtain ⟨hi, hj, hk, hf, hb⟩ := h
  simp only [fccSize, basisSize] at hf hb
  have hc := cell_lt N i j k hi hj hk
  have hNpos : 0 < N := by omega
  have h1 : i * N ≤ (i * N + j) * N := by
    calc i * N ≤ i * N + j := Nat.le_add_right _ _
      _ ≤ (i * N + j) * N := Nat.le_mul_of_pos_right _ hNpos
  have h2 : i * N + j ≤ (i * N + j) * N := Nat.le_mul_of_pos_right _ hNpos
  have e1 : mulSz i N = i * N := Nat.mod_eq_of_lt (by omega)
  have e2 : addSz (i * N) j = i * N + j := Nat.mod_eq_of_lt (by omega)
  have e3 : mulSz (i * N + j) N = (i * N + j) * N := Nat.mod_eq_of_lt (by omega)
  have e4 : addSz ((i * N + j) * N) k = (i * N + j) * N + k := Nat.mod_eq_of_lt (by omega)
  have e5 : mulSz fccSize basisSize = 8 := by decide
  have e6 : mulSz ((i * N + j) * N + k) 8 = ((i * N + j) * N + k) * 8 :=
    Nat.mod_eq_of_lt (by omega)
  have e7 : mulSz fi basisSize = fi * 2 := Nat.mod_eq_of_lt (by simp only [basisSize]; omega)
  have e8 : addSz (((i * N + j) * N + k) * 8) (fi * 2) = ((i * N + j) * N + k) * 8 + fi * 2 :=
    Nat.mod_eq_of_lt (by omega)
  have e9 : addSz (((i * N + j) * N + k) * 8 + fi * 2) bi
      = ((i * N + j) * N + k) * 8 + fi * 2 + bi := Nat.mod_eq_of_lt (by omega)
  simp only [idx, baseOffset, cellIdx, e1, e2, e3, e4, e5, e6, e7, e8, e9]

theorem totalPts_eq (N : Nat) (hN : N * N * N * 8 < 2 ^ 64) : totalPts N = N * N * N * 8 := by
  rcases Nat.eq_zero_or_pos N with h0 | hpos
  · subst h0; decide
  · have h1 : N * N ≤ N * N * N := Nat.le_mul_of_pos_right _ hpos
    have e1 : mulSz N N = N * N := Nat.mod_eq_of_lt (by omega)
    have e2 : mulSz (N * N) N = N * N * N := Nat.mod_eq_of_lt (by omega)
    have e3 : mulSz (N * N * N) fccSize = N * N * N * 4 :=
      Nat.mod_eq_of_lt (by simp only [fccSize]; omega)
    have e4 : mulSz (N * N * N * 4) basisSize = N * N * N * 8 := by
      have : N * N * N * 4 * basisSize = N * N * N * 8 := by simp only [basisSize]; omega
      unfold mulSz
      rw [this]
      exact Nat.mod_eq_of_lt hN
    simp only [totalPts, e1, e2, e3, e4]

/-- Where the point count `8 * N^3` fits 64 bits, the slot index is a bijection from the
iterations of the loop nest onto `[0, totalPts)`: every write is in bounds, no two iterations
write the same slot, every slot is written. -/
theorem idx_bijective (N : Nat) (hN : N * N * N * 8 < 2 ^ 64) :
    totalPts N = 8 * N ^ 3 ∧
    (∀ i j k fi bi, InLoop N i j k fi bi →
      idx N i j k fi bi = ((i * N + j) * N + k) * 8 + fi * 2 + bi ∧
      idx N i j k fi bi < totalPts N) ∧
    (∀ i j k fi bi i2 j2 k2 fi2 bi2, InLoop N i j k fi bi → InLoop N i2 j2 k2 fi2 bi2 →
      idx N i j k fi bi = idx N i2 j2 k2 fi2 bi2 →
      i = i2 ∧ j = j2 ∧ k = k2 ∧ fi = fi2 ∧ bi = bi2) ∧
    (∀ s, s < totalPts N → ∃ i j k fi bi, InLoop N i j k fi bi ∧ idx N i j k fi bi = s) := by
  have ht := totalPts_eq N hN
  refine ⟨by rw [ht]; ring, ?_, ?_, ?_⟩
  · intro i j k fi bi h
    rw [idx_eq N i j k fi bi hN h, ht]
    exact ⟨rfl, slot_lt N i j k fi bi h⟩
  · intro i j k fi bi i2 j2 k2 fi2 bi2 h h2 he
    rw [idx_eq N i j k fi bi hN h, idx_eq N i2 j2 k2 fi2 bi2 hN h2] at he
    obtain ⟨hi, hj, hk, hf, hb⟩ := h
    obtain ⟨hi2, hj2, hk2, hf2, hb2⟩ := h2
    simp only [fccSize, basisSize] at hf hb hf2 hb2
    have hc : (i * N + j) * N + k = (i2 * N + j2) * N + k2 ∧ fi * 2 + bi = fi2 * 2 + bi2 :=
      radix_inj _ (fi * 2 + bi) _ (fi2 * 2 + bi2) 8 (by omega) (by omega) (by omega)
    obtain ⟨hcell, hk3⟩ := radix_inj _ k _ k2 N hk hk2 hc.1
    obtain ⟨hi3, hj3⟩ := radix_inj i j i2 j2 N hj hj2 hcell
    exact ⟨hi3, hj3, hk3, by omega, by omega⟩
  · intro s hs
    rw [ht] at hs
    have hNpos : 0 < N := by
      rcases Nat.eq_zero_or_pos N with h0 | h
      · subst h0; simp at hs
      · exact h
    have hc : s / 8 < N * N * N := by omega
    have hc2 : s / 8 / N < N * N := by
      rw [Nat.div_lt_iff_lt_mul hNpos]; exact hc
    have hc3 : s / 8 / N / N < N := by
      rw [Nat.div_lt_iff_lt_mul hNpos]; exact hc2
    have hin : InLoop N (s / 8 / N / N) (s / 8 / N % N) (s / 8 % N) (s % 8 / 2) (s % 2) :=
      ⟨hc3, Nat.mod_lt _ hNpos, Nat.mod_lt _ hNpos, by simp only [fccSize]; omega,
        by simp only [basisSize]; omega⟩
    refine ⟨_, _, _, _, _, hin, ?_⟩
    rw [idx_eq N _ _ _ _ _ hN hin, Nat.div_add_mod' (s / 8 / N) N, Nat.div_add_mod' (s / 8) N]
    omega

/-- Evaluation for claim C10 at `N = 2097152 = 2^21` (a valid `int`): `8 * N^3 = 2^66`
wraps to `totalPts = 0`, so the write of the first iteration `(0,0,0,0,0)` at slot 0 is out
of bounds of `pts`, and the in-loop iterations `(0,0,0,0,0)` and `(1048576,0,0,0,0)` get
the same slot. -/
theorem lattice_overflow :
    (2097152 : Nat) < 2 ^ 31 ∧
    totalPts 2097152 = 0 ∧
    InLoop 2097152 0 0 0 0 0 ∧
    ¬ idx 2097152 0 0 0 0 0 < totalPts 2097152 ∧
    InLoop 2097152 1048576 0 0 0 0 ∧
    idx 2097152 1048576 0 0 0 0 = idx 2097152 0 0 0 0 0 := by
  decide

/-! ## The tetrahedra loader -/

theorem readInt_cons (t : Int) (rest : List Int) (h : IsInt32 t) :
    readInt (t :: rest) = some (t, rest) := by
  simp only [readInt, IsInt32] at *
  rw [if_pos h]

theorem subOne_eq (n : Int) (h : n ≠ -(2 ^ 31)) : subOne n = some (n - 1) := by
  simp only [subOne]
  rw [if_neg h]

theorem loadTets_lines (lines : List EleLine) (hfit : ∀ l ∈ lines, l.Fits) (rest : List Int) :
    loadTets lines.length ((lines.map (EleLine.tokens 0)).flatten ++ rest)
      = some (lines.map EleLine.toTet) := by
  induction lines with
  | nil => simp [loadTets]
  | cons l lines ih =>
    obtain ⟨hid, h0, h1, h2, h3⟩ := hfit l (List.mem_cons_self _ _)
    have ih2 := ih (fun x hx => hfit x (List.mem_cons_of_mem _ hx))
    simp only [List.length_cons, List.map_cons, List.flatten_cons, EleLine.tokens,
      List.cons_append, List.nil_append, loadTets, readInt_cons _ _ hid, readInt_cons _ _ h0.1,
      readInt_cons _ _ h1.1, readInt_cons _ _ h2.1, readInt_cons _ _ h3.1, subOne_eq _ h0.2,
      subOne_eq _ h1.2, subOne_eq _ h2.2, subOne_eq _ h3.2]
    simp only [show ((0 : Int) = 1) = False from by simp, if_false, List.append_nil,
      List.nil_append]
    rw [ih2]
    rfl


theorem isInt32_zero : IsInt32 0 := by
  unfold IsInt32
  constructor <;> norm_num

theorem readSize_cons (n : Nat) (rest : List Int) (h : (n : Int) < 2 ^ 64) :
    readSize ((n : Int) :: rest) = some (n, rest) := by
  simp only [readSize]
  rw [if_pos ⟨Int.natCast_nonneg _, h⟩, Int.toNat_natCast]

theorem loadEle_of_reads (tokens s1 s2 s3 : List Int) (n : Nat) (a b : Int)
    (h1 : readSize tokens = some (n, s1)) (h2 : readInt s1 = some (a, s2))
    (h3 : readInt s2 = some (b, s3)) :
    loadEle tokens = loadTets n s3 := by
  unfold loadEle
  rw [h1]
  simp only
  rw [h2]
  simp only
  rw [h3]

theorem eleFile_eq (nodesPerTet eleMarkers : Int) (lines : List EleLine) :
    eleFile nodesPerTet eleMarkers lines
      = (lines.length : Int) :: nodesPerTet :: eleMarkers ::
          (lines.map (EleLine.tokens eleMarkers)).flatten := rfl

/-- Claim C9 fails on a file with markers: header `2 4 1`, lines `1 1 2 3 4 7` and
`2 5 6 7 8 7`. The loader never extracts the marker, so the second tetrahedron is read from
the tokens `7 2 5 6 7` and comes out as `(1, 4, 5, 6)`, not `(4, 5, 6, 7)`. It also fails
on a number that does not fit an `int`: for header `1 4 0` and line `1 2147483648 2 3 4` the
extraction of `n0` fails; and on the least `int` as a node id: for line
`1 -2147483648 2 3 4` the subtraction `n0 - 1` overflows. In both the tetrahedron of the
line is not obtained. -/
theorem loadEle_markers_counterexample :
    eleFile 4 1 [⟨1, 1, 2, 3, 4, 7⟩, ⟨2, 5, 6, 7, 8, 7⟩]
      = [2, 4, 1, 1, 1, 2, 3, 4, 7, 2, 5, 6, 7, 8, 7] ∧
    loadEle (eleFile 4 1 [⟨1, 1, 2, 3, 4, 7⟩, ⟨2, 5, 6, 7, 8, 7⟩])
      = some [⟨0, 1, 2, 3⟩, ⟨1, 4, 5, 6⟩] ∧
    loadEle (eleFile 4 1 [⟨1, 1, 2, 3, 4, 7⟩, ⟨2, 5, 6, 7, 8, 7⟩])
      ≠ some ([(⟨1, 1, 2, 3, 4, 7⟩ : EleLine), ⟨2, 5, 6, 7, 8, 7⟩].map EleLine.toTet) ∧
    loadEle (eleFile 4 0 [⟨1, 2147483648, 2, 3, 4, 0⟩])
      ≠ some ([(⟨1, 2147483648, 2, 3, 4, 0⟩ : EleLine)].map EleLine.toTet) ∧
    loadEle (eleFile 4 0 [⟨1, -2147483648, 2, 3, 4, 0⟩])
      ≠ some ([(⟨1, -2147483648, 2, 3, 4, 0⟩ : EleLine)].map EleLine.toTet) := by
  decide

/-- Claim C9 as amended: for a tetrahedra file without markers (header
`numTets nodesPerTet 0`, then `numTets` lines `id n0 n1 n2 n3`) in which every number fits
the C++ variable it is read into and every node id is above the least `int` `-2^31` (so that
`n - 1` does not overflow), the loader yields exactly `numTets` tetrahedra in file order,
the i-th being `(n0-1, n1-1, n2-1, n3-1)` of the i-th line. -/
theorem loadEle_without_markers (nodesPerTet : Int) (lines : List EleLine)
    (hnp : IsInt32 nodesPerTet) (hlen : (lines.length : Int) < 2 ^ 64)
    (hfit : ∀ l ∈ lines, l.Fits) :
    loadEle (eleFile nodesPerTet 0 lines) = some (lines.map EleLine.toTet) := by
  have h := loadTets_lines lines hfit []
  rw [List.append_nil] at h
  rw [eleFile_eq, loadEle_of_reads _ _ _ _ _ _ _ (readSize_cons _ _ hlen)
    (readInt_cons _ _ hnp) (readInt_cons _ _ isInt32_zero)]
  exact h

/-- Claim C9 as amended, on the spec's scenario: header `1 4 0`, line `1 1 2 3 4`. -/
theorem loadEle_without_markers_witness :
    IsInt32 4 ∧ (([⟨1, 1, 2, 3, 4, 0⟩] : List EleLine).length : Int) < 2 ^ 64 ∧
    (∀ l ∈ ([⟨1, 1, 2, 3, 4, 0⟩] : List EleLine), l.Fits) ∧
    loadEle (eleFile 4 0 [⟨1, 1, 2, 3, 4, 0⟩])
      = some (([⟨1, 1, 2, 3, 4, 0⟩] : List EleLine).map EleLine.toTet) ∧
    ([⟨1, 1, 2, 3, 4, 0⟩] : List EleLine).map EleLine.toTet = [⟨0, 1, 2, 3⟩] :=
  ⟨by norm_num [IsInt32], by norm_num, by simp [EleLine.Fits, IsInt32],
    loadEle_without_markers 4 [⟨1, 1, 2, 3, 4, 0⟩] (by norm_num [IsInt32]) (by norm_num)
      (by simp [EleLine.Fits, IsInt32]),
    by decide⟩

end MeshQuality
